import Mathlib

/-!
Verification of the heuristic core of the logistics-ai-assistant repository:
the text segmenter (backend/document_processor.py), the regex-based structured
field extractor (backend/extractor.py), and the confidence scoring / guardrail
engine (backend/guardrails.py).

Modelling conventions of this shallow embedding:
* a Python `str` is a `List Char` (`PyStr`), indexed and sliced like Python;
* Python `float` values that only ever carry decimal data are modelled as `ℚ`;
* `round(x, 4)` (Python round-half-to-even) is `pyRound4`;
* character classes (`\s`, `\w`, upper/lower case) use their ASCII semantics,
  which is the fragment exercised by the repository's documents;
* fallible code (`range` with a zero step raises `ValueError`) returns `Option`.
-/

namespace Logistics

/-- Python strings modelled as lists of characters. -/
abbrev PyStr := List Char

/-- ASCII semantics of Python's whitespace class `\s` / `str.isspace`. -/
def pyIsSpace (c : Char) : Bool :=
  c = ' ' || c = '\t' || c = '\n' || c = '\r' || c = '\x0b' || c = '\x0c'

/-- Python `str.strip()`: remove leading and trailing whitespace. -/
def pyStrip (s : PyStr) : PyStr :=
  ((s.dropWhile pyIsSpace).reverse.dropWhile pyIsSpace).reverse

/-- Python `str.lower()` (ASCII fragment). -/
def pyLower (s : PyStr) : PyStr := s.map Char.toLower

/-- Python word character (`\w`), ASCII fragment: letter, digit or underscore. -/
def isWordChar (c : Char) : Bool := c.isAlpha || c.isDigit || c = '_'

/-- Dropping a prefix by a predicate never lengthens a list. -/
theorem length_dropWhile_le (p : Char → Bool) :
    ∀ l : List Char, (l.dropWhile p).length ≤ l.length := by
  intro l
  induction l with
  | nil => simp [List.dropWhile]
  | cons c rest ih =>
    by_cases h : p c
    · simpa [List.dropWhile, h] using Nat.le_succ_of_le ih
    · simp [List.dropWhile, h]

/-- Accumulating scanner behind `runsBy`; `cur` holds the run built so far,
reversed. -/
def runsByAux (p : Char → Bool) (cur : PyStr) : PyStr → List PyStr
  | [] => if cur = [] then [] else [cur.reverse]
  | c :: rest =>
    if p c then runsByAux p (c :: cur) rest
    else if cur = [] then runsByAux p [] rest
    else cur.reverse :: runsByAux p [] rest

/-- Maximal runs of characters satisfying `p`, in order (separators dropped). -/
def runsBy (p : Char → Bool) (s : PyStr) : List PyStr := runsByAux p [] s

/-- Python's substring test `needle in hay`. -/
def pySubstr (needle : PyStr) (hay : PyStr) : Bool :=
  match hay with
  | [] => needle.isEmpty
  | _ :: rest => needle.isPrefixOf hay || pySubstr needle rest

/-- Python `str.split()` with no argument: maximal whitespace-free runs. -/
def pySplitWs (s : PyStr) : List PyStr := runsBy (fun c => !pyIsSpace c) s

/-- Models `re.findall(r'\b[a-z]{4,}\b', s)`: the maximal word-character runs
that consist only of lowercase letters and have length at least 4. -/
def findWords4 (s : PyStr) : List PyStr :=
  (runsBy isWordChar s).filter (fun r => 4 ≤ r.length && r.all Char.isLower)

/-- Number of occurrences of character `c` in `s` (Python `str.count` for a
single-character needle). -/
def pyCount (c : Char) (s : PyStr) : Nat := (s.filter (fun x => x = c)).length

/-- Round a rational to the nearest integer, ties to even — the rounding mode
of Python's built-in `round`. -/
def roundHalfEven (x : ℚ) : ℤ :=
  if x - ⌊x⌋ < 1/2 then ⌊x⌋
  else if 1/2 < x - ⌊x⌋ then ⌊x⌋ + 1
  else if Even ⌊x⌋ then ⌊x⌋ else ⌊x⌋ + 1

/-- Python `round(x, 4)`. -/
def pyRound4 (x : ℚ) : ℚ := (roundHalfEven (x * 10000) : ℚ) / 10000

-- ──────────────────────────────────────────────────────────────────
-- backend/guardrails.py
-- ──────────────────────────────────────────────────────────────────

/-- Stopword list of `compute_answer_coverage` (guardrails.py lines 57-66). -/
def coverage_stopwords : List PyStr :=
  [("the").toList, ("and").toList, ("for").toList, ("are").toList,
   ("but").toList, ("not").toList, ("you").toList, ("all").toList,
   ("can").toList, ("had").toList, ("her").toList, ("was").toList,
   ("one").toList, ("our").toList, ("out").toList, ("has").toList,
   ("have").toList, ("been").toList, ("from").toList, ("they").toList,
   ("this").toList, ("that").toList, ("with").toList, ("will").toList,
   ("would").toList, ("there").toList, ("their").toList, ("what").toList,
   ("about").toList, ("which").toList, ("when").toList, ("make").toList,
   ("than").toList, ("them").toList, ("some").toList, ("time").toList,
   ("very").toList, ("your").toList, ("just").toList, ("know").toList,
   ("take").toList, ("come").toList, ("could").toList, ("into").toList,
   ("year").toList, ("also").toList, ("back").toList, ("after").toList,
   ("only").toList, ("most").toList, ("other").toList, ("over").toList,
   ("such").toList, ("does").toList, ("should").toList, ("being").toList,
   ("found").toList, ("based").toList, ("document").toList,
   ("information").toList, ("please").toList, ("note").toList,
   ("mentioned").toList, ("according").toList]

/-- Significant words of an (already lowercased) answer: the `\b[a-z]{4,}\b`
tokens that are not stopwords (guardrails.py lines 68-69). -/
def significant_words (answer_lower : PyStr) : List PyStr :=
  (findWords4 answer_lower).filter (fun w => !(decide (w ∈ coverage_stopwords)))

/-- Embedding of `compute_retrieval_confidence` (guardrails.py lines 12-41). -/
def compute_retrieval_confidence (similarity_scores : List ℚ) : ℚ :=
  match similarity_scores with
  | [] => 0
  | s0 :: rest =>
    let scores := s0 :: rest
    let mean_score := scores.sum / scores.length
    let top_signal := min 1 (max 0 s0)
    let gap_signal : ℚ :=
      match rest with
      | [] => 0.5
      | s1 :: _ => min 1 ((s0 - s1) * 5)
    let mean_signal := min 1 (max 0 mean_score)
    let confidence := 0.5 * top_signal + 0.2 * gap_signal + 0.3 * mean_signal
    pyRound4 (min 1 (max 0 confidence))

/-- Embedding of `compute_answer_coverage` (guardrails.py lines 44-77). -/
def compute_answer_coverage (answer : PyStr) (source_texts : List PyStr) : ℚ :=
  if answer = [] ∨ source_texts = [] then 0
  else
    let answer_lower := pyLower answer
    let combined_sources := pyLower (List.intercalate ((' ') :: []) source_texts)
    let sig_words := significant_words answer_lower
    if sig_words = [] then 0.5
    else
      let covered := (sig_words.filter (fun w => pySubstr w combined_sources)).length
      pyRound4 ((covered : ℚ) / sig_words.length)

/-- A retrieved chunk as consumed by `compute_chunk_agreement`: the embedding
keeps the only key that function reads, `chunk["text"]`. -/
structure ChunkDoc where
  text : PyStr
deriving DecidableEq

/-- Embedding of `compute_chunk_agreement` (guardrails.py lines 80-103).
Python iterates over `set(re.findall(...))`; the embedding iterates over the
deduplicated token list, whose mean is the same as over the set. -/
def compute_chunk_agreement (chunks : List ChunkDoc) (answer : PyStr) : ℚ :=
  if chunks = [] ∨ answer = [] then 0
  else
    let answer_lower := pyLower answer
    let key_terms := (findWords4 answer_lower).dedup
    if key_terms = [] then 0.5
    else
      let chunk_texts := chunks.map (fun c => pyLower c.text)
      let term_chunk_counts := key_terms.map (fun term =>
        ((chunk_texts.filter (fun ct => pySubstr term ct)).length : ℚ) / chunk_texts.length)
      pyRound4 (term_chunk_counts.sum / term_chunk_counts.length)

/-- Embedding of `compute_composite_confidence` (guardrails.py lines 106-123). -/
def compute_composite_confidence (similarity_scores : List ℚ) (answer : PyStr)
    (source_texts : List PyStr) (chunks : List ChunkDoc) : ℚ :=
  let retrieval_conf := compute_retrieval_confidence similarity_scores
  let coverage_conf := compute_answer_coverage answer source_texts
  let agreement_conf := compute_chunk_agreement chunks answer
  pyRound4 (min 1 (max 0
    (0.40 * retrieval_conf + 0.35 * coverage_conf + 0.25 * agreement_conf)))

/-- The `HALLUCINATION_PHRASES` table (guardrails.py lines 128-140). -/
def HALLUCINATION_PHRASES : List PyStr :=
  [("as an ai").toList, ("i don\x27t have access").toList,
   ("i cannot determine").toList, ("based on my training").toList,
   ("as a language model").toList, ("i\x27m not sure").toList,
   ("general knowledge").toList, ("typically in logistics").toList,
   ("usually").toList, ("in my experience").toList, ("commonly").toList]

/-- Which guardrail fired, carrying the data interpolated into the
human-readable `guardrail_message` of the Python code (whose exact English
wording is not semantically relevant). -/
inductive GuardrailMsg where
  | lowConfidence (confidence threshold : ℚ)
  | lowSimilarity (top : ℚ)
  | hallucinationPhrase (phrase : PyStr)
  | tooShort
deriving DecidableEq

/-- Replacement answer of guardrail 1 (guardrails.py lines 166-168). -/
def notFoundLowConfidence : PyStr :=
  ("⚠️ Not found in document — The system could not find a confident answer to this question in the uploaded document. The information may not be present, or the question may need to be rephrased.").toList

/-- Replacement answer of guardrail 2 (guardrails.py lines 177-178). -/
def notFoundLowSimilarity : PyStr :=
  ("⚠️ Not found in document — No relevant content was found that matches your question. The information may not be present in this document.").toList

/-- Caution marker prefixed to the answer by guardrail 3 (guardrails.py
lines 189-190); the original answer is appended after it. -/
def cautionMarker : PyStr :=
  ("⚠️ The answer may not be fully grounded in the document. Please verify: ").toList

/-- Replacement answer of guardrail 4 (guardrails.py line 198). -/
def notFoundTooShort : PyStr :=
  ("⚠️ Not found in document — Could not generate a meaningful answer.").toList

/-- The `for phrase in HALLUCINATION_PHRASES` loop of guardrail 3: the first
listed phrase contained in the lowercased answer. -/
def find_hallucination_phrase (answer_lower : PyStr) : Option PyStr :=
  HALLUCINATION_PHRASES.find? (fun p => pySubstr p answer_lower)

/-- Guardrails 3-5 (reached when guardrails 1 and 2 did not fire). -/
def check_guardrails_tail (answer : PyStr) : Bool × Option GuardrailMsg × PyStr :=
  match find_hallucination_phrase (pyLower answer) with
  | some phrase =>
    (true, some (GuardrailMsg.hallucinationPhrase phrase), cautionMarker ++ answer)
  | none =>
    if (pyStrip answer).length < 10 then
      (true, some GuardrailMsg.tooShort, notFoundTooShort)
    else
      (false, none, answer)

/-- Embedding of `check_guardrails` (guardrails.py lines 143-202). The result
is the tuple `(triggered, guardrail_message, final_answer)`. -/
def check_guardrails (answer : PyStr) (confidence : ℚ)
    (similarity_scores : List ℚ) (threshold : ℚ) :
    Bool × Option GuardrailMsg × PyStr :=
  if confidence < threshold then
    (true, some (GuardrailMsg.lowConfidence confidence threshold), notFoundLowConfidence)
  else
    match similarity_scores with
    | s0 :: _ =>
      if s0 < 0.25 then
        (true, some (GuardrailMsg.lowSimilarity s0), notFoundLowSimilarity)
      else
        check_guardrails_tail answer
    | [] => check_guardrails_tail answer

-- ──────────────────────────────────────────────────────────────────
-- backend/extractor.py
-- ──────────────────────────────────────────────────────────────────

/-- The `skip_words` stoplist of `_is_junk_value` (extractor.py lines 81-84). -/
def skip_words : List PyStr :=
  [("information").toList, ("details").toList, ("section").toList,
   ("data").toList, ("summary").toList, ("n/a").toList, ("na").toList,
   ("none").toList, ("null").toList, ("tbd").toList, ("---").toList,
   ("===").toList]

/-- The `header_keywords` table of `_is_junk_value` (extractor.py
lines 96-100). -/
def header_keywords : List PyStr :=
  [("carrier").toList, ("mc").toList, ("phone").toList, ("equipment").toList,
   ("agreed").toList, ("amount").toList, ("size").toList, ("feet").toList,
   ("column").toList, ("field").toList, ("value").toList, ("type").toList,
   ("name").toList, ("address").toList, ("city").toList, ("state").toList,
   ("zip").toList, ("contact").toList, ("email").toList, ("fax").toList]

/-- Embedding of `_is_junk_value` (extractor.py lines 71-110). `set(...)` over
the split words is modelled by `List.dedup`. -/
def is_junk_value (val : PyStr) : Bool :=
  if val = [] ∨ (pyStrip val).length < 2 then true
  else
    let val_lower := pyStrip (pyLower val)
    if val_lower ∈ skip_words then true
    else if (("---").toList.isPrefixOf val) || (("===").toList.isPrefixOf val) then true
    else if val.all (fun c => pyIsSpace c || c = '-') then true
    else
      let words := (pySplitWs val_lower).dedup
      let header_overlap := (words.filter (fun w => decide (w ∈ header_keywords))).length
      if 3 ≤ header_overlap ∧ 4 ≤ words.length then true
      else if 2 ≤ pyCount ('|') val then true
      else false

/-- An abstract label pattern: `re.search(pattern, text, flags)` followed by
`match.group(1)` is modelled as a function returning the first capture group
of the first match when the pattern matches, and `none` otherwise. -/
abbrev LabelPattern := PyStr → Option PyStr

/-- Embedding of `_find_value_after_label` (extractor.py lines 113-130). -/
def find_value_after_label (text : PyStr) : List LabelPattern → Option PyStr
  | [] => none
  | p :: ps =>
    match p text with
    | none => find_value_after_label text ps
    | some g =>
      let val := pyStrip g
      if is_junk_value val then find_value_after_label text ps
      else some (val.take 150)

/-- Numeric value of a list of decimal digit characters (most significant
first), as accumulated by positional parsing. -/
def digitsVal (s : PyStr) : ℕ := s.foldl (fun n c => 10 * n + (c.toNat - 48)) 0

/-- Unsigned decimal parser behind `pyFloat`: a digit run, optionally
followed by `.` and a digit run, at least one digit in total, nothing else. -/
def pyFloatCore (t : PyStr) : Option ℚ :=
  match t.dropWhile Char.isDigit with
  | [] =>
    if t.takeWhile Char.isDigit = [] then none
    else some (digitsVal (t.takeWhile Char.isDigit))
  | c :: fr =>
    if c = '.' then
      if fr.dropWhile Char.isDigit = [] then
        if t.takeWhile Char.isDigit = [] ∧ fr.takeWhile Char.isDigit = [] then none
        else
          some ((digitsVal (t.takeWhile Char.isDigit) : ℚ) +
            (digitsVal (fr.takeWhile Char.isDigit) : ℚ) /
              (10 : ℚ) ^ (fr.takeWhile Char.isDigit).length)
      else none
    else none

/-- Models Python `float(s)` on plain decimal literals: an optional sign, an
integer part and an optional fractional part. Other accepted `float` inputs
(exponents, `inf`, `nan`, underscores) are not produced by this code base and
are modelled as parse failures, as are genuine `ValueError` inputs. -/
def pyFloat (s : PyStr) : Option ℚ :=
  match s with
  | [] => none
  | c :: t =>
    if c = '+' then pyFloatCore t
    else if c = '-' then (pyFloatCore t).map (fun q => -q)
    else pyFloatCore (c :: t)

/-- Python `s.replace(",", "")`. -/
def removeCommas (s : PyStr) : PyStr := s.filter (fun c => c ≠ ',')

/-- The `for pattern in rate_patterns` loop of `_extract_with_regex`
(extractor.py lines 394-404): the first pattern whose captured amount parses
to a number strictly between 10 and 1,000,000 wins; all other candidates fall
through to the next pattern. -/
def rate_from_patterns (text : PyStr) : List LabelPattern → Option PyStr
  | [] => none
  | p :: ps =>
    match p text with
    | none => rate_from_patterns text ps
    | some g =>
      match pyFloat (pyStrip (removeCommas g)) with
      | none => rate_from_patterns text ps
      | some rate_num =>
        if 10 < rate_num ∧ rate_num < 1000000 then some (pyStrip (removeCommas g))
        else rate_from_patterns text ps

/-- One attempted match of `\$\s*([\d,]+\.\d{2})` at a position right after a
`$`: skip whitespace, read a maximal nonempty `[\d,]` run, then require `.`
and two digits. Returns the capture and the remaining input. -/
def matchDollarAt (s : PyStr) : Option (PyStr × PyStr) :=
  if (s.dropWhile pyIsSpace).takeWhile (fun c => c.isDigit || c = ',') = [] then none
  else
    match (s.dropWhile pyIsSpace).dropWhile (fun c => c.isDigit || c = ',') with
    | '.' :: d1 :: d2 :: rest2 =>
      if d1.isDigit && d2.isDigit then
        some ((s.dropWhile pyIsSpace).takeWhile (fun c => c.isDigit || c = ',')
                ++ ('.') :: d1 :: d2 :: [], rest2)
      else none
    | _ => none

/-- A successful `matchDollarAt` consumes at least the dot and two digits. -/
theorem matchDollarAt_shrinks (s g r : PyStr) (h : matchDollarAt s = some (g, r)) :
    r.length < s.length := by
  unfold matchDollarAt at h
  split at h
  · simp at h
  · split at h
    · rename_i d1 d2 rest2 heq
      split at h
      · rw [Option.some.injEq, Prod.mk.injEq] at h
        obtain ⟨-, hr⟩ := h
        subst hr
        have h1 : ((s.dropWhile pyIsSpace).dropWhile (fun c => c.isDigit || c = ',')).length
            ≤ (s.dropWhile pyIsSpace).length := length_dropWhile_le _ _
        have h2 : (s.dropWhile pyIsSpace).length ≤ s.length := length_dropWhile_le _ _
        rw [heq] at h1
        simp only [List.length_cons] at h1
        omega
      · simp at h
    · simp at h

/-- Scanner engine of `re.findall(r'\$\s*([\d,]+\.\d{2})', text)`: each step
consumes at least one character, so fuel bounding the input length suffices. -/
def scanDollarFuel : ℕ → PyStr → List PyStr
  | 0, _ => []
  | _ + 1, [] => []
  | fuel + 1, c :: rest =>
    if c = '$' then
      match matchDollarAt rest with
      | some (g, rest2) => g :: scanDollarFuel fuel rest2
      | none => scanDollarFuel fuel rest
    else scanDollarFuel fuel rest

/-- Models `re.findall(r'\$\s*([\d,]+\.\d{2})', text)` (extractor.py
line 408): non-overlapping matches scanned left to right; on failure the scan
restarts one character further on. By `matchDollarAt_shrinks` a match leaves a
strictly shorter remainder, so `text.length` is sufficient fuel. -/
def scanDollar (s : PyStr) : List PyStr := scanDollarFuel s.length s

/-- The fallback amount list (extractor.py lines 408-417): each dollar match,
commas removed, parsed, and kept when strictly between 10 and 1,000,000. -/
def dollar_amounts (text : PyStr) : List ℚ :=
  (scanDollar text).filterMap (fun m =>
    match pyFloat (removeCommas m) with
    | none => none
    | some v => if 10 < v ∧ v < 1000000 then some v else none)

/-- Python `max` over a nonempty list (first element as the running start). -/
def pyMaxQ : List ℚ → ℚ
  | [] => 0
  | a :: rest => rest.foldl max a

/-- Little-endian decimal digits of `n`; the fuel argument bounds the number
of division steps and `n` itself is always sufficient. -/
def natDigitsFuel : ℕ → ℕ → List ℕ
  | 0, _ => []
  | _ + 1, 0 => []
  | fuel + 1, n + 1 => ((n + 1) % 10) :: natDigitsFuel fuel ((n + 1) / 10)

/-- Decimal digit characters of a natural number, most significant first
(with a leading `0` for zero). -/
def natToChars (n : ℕ) : PyStr :=
  if n = 0 then ('0') :: []
  else ((natDigitsFuel n n).reverse.map (fun d => Char.ofNat (48 + d)))

/-- Exactly two decimal digits of a value below 100. -/
def natToChars2 (n : ℕ) : PyStr :=
  (Char.ofNat (48 + n / 10)) :: (Char.ofNat (48 + n % 10)) :: []

/-- Models the f-string `f"{v:.2f}"` (extractor.py line 419) for the
nonnegative amounts this code formats: the value rounded to two decimal
places (half to even, as Python formats floats) printed with exactly two
fractional digits. -/
def formatFixed2 (q : ℚ) : PyStr :=
  let n := (roundHalfEven (q * 100)).toNat
  natToChars (n / 100) ++ ('.') :: natToChars2 (n % 100)

/-- The full rate extraction of `_extract_with_regex` (extractor.py
lines 383-419): the labeled-pattern cascade, then the standalone
dollar-amount fallback reporting the maximum plausible amount. -/
def extract_rate (pats : List LabelPattern) (text : PyStr) : Option PyStr :=
  match rate_from_patterns text pats with
  | some r => some r
  | none =>
    match dollar_amounts text with
    | [] => none
    | a :: rest => some (formatFixed2 (pyMaxQ (a :: rest)))

-- ──────────────────────────────────────────────────────────────────
-- backend/document_processor.py
-- ──────────────────────────────────────────────────────────────────

/-- Python `text.split("\n")`. -/
def splitOnNl : PyStr → List PyStr
  | [] => [[]]
  | c :: rest =>
    if c = '\n' then [] :: splitOnNl rest
    else
      match splitOnNl rest with
      | [] => (c :: []) :: []
      | l :: ls => (c :: l) :: ls

/-- Python `"\n".join(lines)`. -/
def joinNl (lines : List PyStr) : PyStr := List.intercalate (('\n') :: []) lines

/-- Python `str.isupper()` (ASCII fragment): at least one letter and no
lowercase letter. -/
def pyIsUpper (s : PyStr) : Bool :=
  s.any (fun c => c.isAlpha) && s.all (fun c => !c.isAlpha || c.isUpper)

/-- Consume the literal word `w` as a prefix, returning the rest. -/
def dropLit (w s : PyStr) : Option PyStr :=
  if w.isPrefixOf s then some (s.drop w.length) else none

/-- Consume `\s+`: at least one whitespace character, greedily. -/
def dropWs1 (s : PyStr) : Option PyStr :=
  match s with
  | [] => none
  | c :: rest => if pyIsSpace c then some (rest.dropWhile pyIsSpace) else none

/-- Consume one alternative of `(?:w1|w2|...)`, first alternative wins. -/
def dropAlt (ws : List PyStr) (s : PyStr) : Option PyStr :=
  match ws with
  | [] => none
  | w :: rest =>
    match dropLit w s with
    | some r => some r
    | none => dropAlt rest s

/-- Matches `^w\s+(?:a1|a2|...)` — the shape of most `SECTION_PATTERNS`
entries (document_processor.py lines 87-106). The alternatives of every such
pattern have pairwise distinct prefixes, so first-alternative matching agrees
with the regex. -/
def matchWordAlt (w : PyStr) (alts : List PyStr) (s : PyStr) : Bool :=
  (((dropLit w s).bind dropWs1).bind (fun r => dropAlt alts r)).isSome

/-- Matches a `^w1\s+w2\s+w3` literal phrase pattern. -/
def matchPhrase3 (w1 w2 w3 s : PyStr) : Bool :=
  (((((dropLit w1 s).bind dropWs1).bind (dropLit w2)).bind dropWs1).bind
    (dropLit w3)).isSome

/-- Matches `^(?:a1|a2|...)\s` — an alternative followed by one whitespace
character. -/
def matchAltSpace (alts : List PyStr) (s : PyStr) : Bool :=
  match dropAlt alts s with
  | some (c :: _) => pyIsSpace c
  | _ => false

/-- Matches `^#{1,3}\s`: one to three `#` characters followed by whitespace
(the markdown-header entry of `SECTION_PATTERNS`). -/
def matchHashHeader (s : PyStr) : Bool :=
  let hashes := (s.takeWhile (fun c => c = '#')).length
  1 ≤ hashes && hashes ≤ 3 && (match s.drop hashes with
    | c :: _ => pyIsSpace c
    | [] => false)

/-- The `SECTION_PATTERNS` table (document_processor.py lines 87-106), as one
predicate on the lowercased stripped line; every pattern is `(?i)` so matching
the lowercased line is equivalent, and `#`/whitespace are unaffected by
lowercasing. -/
def matchesSectionPattern (s : PyStr) : Bool :=
  matchWordAlt (("shipment").toList)
    [("details").toList, ("information").toList, ("summary").toList] s ||
  matchWordAlt (("shipper").toList)
    [("information").toList, ("details").toList, ("name").toList] s ||
  matchWordAlt (("consignee").toList)
    [("information").toList, ("details").toList, ("name").toList] s ||
  matchWordAlt (("carrier").toList)
    [("information").toList, ("details").toList, ("name").toList] s ||
  matchWordAlt (("rate").toList)
    [("confirmation").toList, ("details").toList, ("summary").toList] s ||
  matchWordAlt (("pickup").toList)
    [("details").toList, ("information").toList, ("date").toList, ("time").toList] s ||
  matchWordAlt (("delivery").toList)
    [("details").toList, ("information").toList, ("date").toList, ("time").toList] s ||
  matchPhrase3 (("bill").toList) (("of").toList) (("lading").toList) s ||
  matchWordAlt (("freight").toList)
    [("charges").toList, ("details").toList, ("bill").toList] s ||
  matchWordAlt (("special").toList)
    [("instructions").toList, ("notes").toList, ("requirements").toList] s ||
  matchWordAlt (("equipment").toList)
    [("type").toList, ("details").toList, ("requirements").toList] s ||
  matchPhrase3 (("terms").toList) (("and").toList) (("conditions").toList) s ||
  matchWordAlt (("payment").toList)
    [("terms").toList, ("details").toList] s ||
  (dropAlt [("insurance").toList, ("claims").toList, ("liability").toList] s).isSome ||
  matchAltSpace [("commodity").toList, ("cargo").toList, ("goods").toList] s ||
  matchAltSpace [("origin").toList, ("destination").toList] s ||
  matchAltSpace [("weight").toList, ("dimensions").toList] s ||
  matchHashHeader s

/-- Embedding of `_is_section_boundary` (document_processor.py
lines 109-120). -/
def is_section_boundary (line : PyStr) : Bool :=
  let line_stripped := pyStrip line
  if line_stripped = [] then false
  else if matchesSectionPattern (pyLower line_stripped) then true
  else pyIsUpper line_stripped && 3 < line_stripped.length && line_stripped.length < 80

/-- The section-accumulation loop of `intelligent_chunk` (document_processor.py
lines 134-146): close the running section at each boundary line, then close
the final section. -/
def buildSections (sections : List PyStr) (current : List PyStr) :
    List PyStr → List PyStr
  | [] => if current = [] then sections else sections ++ [joinNl current]
  | line :: rest =>
    if is_section_boundary line ∧ current ≠ [] then
      buildSections (sections ++ [joinNl current]) (line :: []) rest
    else
      buildSections sections (current ++ [line]) rest

/-- True when the (reversed) sentence built so far ends in `.`, `!` or `?` —
the lookbehind of the sentence-splitting regex. -/
def endsSentence (acc : PyStr) : Bool :=
  match acc with
  | p :: _ => p = '.' || p = '!' || p = '?'
  | [] => false

/-- Models `re.split(r'(?<=[.!?])\s+', section)`: split at each whitespace run
directly preceded by `.`, `!` or `?`. The accumulator holds the current
sentence reversed; `skipping` is true while inside the whitespace run of a
split point (the greedy `\s+`). -/
def sentSplitAux (acc : PyStr) (skipping : Bool) : PyStr → List PyStr
  | [] => if skipping then [[]] else [acc.reverse]
  | c :: rest =>
    if skipping then
      if pyIsSpace c then sentSplitAux [] true rest
      else sentSplitAux (c :: []) false rest
    else if pyIsSpace c && endsSentence acc then
      acc.reverse :: sentSplitAux [] true rest
    else sentSplitAux (c :: acc) false rest

/-- Sentence splitting of an oversized section (document_processor.py
line 160). -/
def sentSplit (s : PyStr) : List PyStr := sentSplitAux [] false s

/-- Iteration engine of `range` for a positive step; the fuel argument is a
bound on the number of iterations, provably sufficient at the call site since
each iteration advances `start` by `step ≥ 1`. -/
def pyRangeUpFuel (stop step : ℤ) : ℕ → ℤ → List ℤ
  | 0, _ => []
  | fuel + 1, start =>
    if start < stop then start :: pyRangeUpFuel stop step fuel (start + step)
    else []

/-- Python `range(start, stop, step)` for a positive step. -/
def pyRangeUp (start stop step : ℤ) : List ℤ :=
  pyRangeUpFuel stop step (stop - start).toNat start

/-- Iteration engine of `range` for a negative step (fuel as above). -/
def pyRangeDownFuel (stop step : ℤ) : ℕ → ℤ → List ℤ
  | 0, _ => []
  | fuel + 1, start =>
    if stop < start then start :: pyRangeDownFuel stop step fuel (start + step)
    else []

/-- Python `range(start, stop, step)` for a negative step. -/
def pyRangeDown (start stop step : ℤ) : List ℤ :=
  pyRangeDownFuel stop step (start - stop).toNat start

/-- Python `range(start, stop, step)` as a list; `none` models the
`ValueError` raised when `step == 0`. -/
def pyRange (start stop step : ℤ) : Option (List ℤ) :=
  if step = 0 then none
  else if 0 < step then some (pyRangeUp start stop step)
  else some (pyRangeDown start stop step)

/-- The window at offset `i ≥ 0`: Python `sentence[i : i + chunk_size]`. -/
def windowAt (s : PyStr) (chunk_size : ℤ) (i : ℤ) : PyStr :=
  (s.drop i.toNat).take chunk_size.toNat

/-- The emission loop of the character-level hard split (document_processor.py
lines 171-174): each window with nonempty trimmed content is emitted,
stripped. -/
def emitWindows (s : PyStr) (chunk_size : ℤ) : List ℤ → List PyStr
  | [] => []
  | i :: rest =>
    if pyStrip (windowAt s chunk_size i) = [] then emitWindows s chunk_size rest
    else pyStrip (windowAt s chunk_size i) :: emitWindows s chunk_size rest

/-- The full hard split of one oversized sentence (document_processor.py
lines 170-175): windows of length `chunk_size` at offsets
`range(0, len(sentence), chunk_size - chunk_overlap)`. -/
def hardSplitEmit (s : PyStr) (chunk_size chunk_overlap : ℤ) : Option (List PyStr) :=
  match pyRange 0 s.length (chunk_size - chunk_overlap) with
  | none => none
  | some offsets => some (emitWindows s chunk_size offsets)

/-- The greedy sentence-packing loop of `intelligent_chunk`
(document_processor.py lines 161-180), including the final buffer flush. -/
def packSentences (chunk_size chunk_overlap : ℤ) (chunks : List PyStr)
    (cur : PyStr) : List PyStr → Option (List PyStr)
  | [] => some (if pyStrip cur = [] then chunks else chunks ++ [pyStrip cur])
  | s :: rest =>
    if (cur.length : ℤ) + s.length + 1 ≤ chunk_size then
      packSentences chunk_size chunk_overlap chunks
        (cur ++ (if cur = [] then [] else (' ') :: []) ++ s) rest
    else if chunk_size < (s.length : ℤ) then
      match hardSplitEmit s chunk_size chunk_overlap with
      | none => none
      | some ws =>
        packSentences chunk_size chunk_overlap
          ((if cur = [] then chunks else chunks ++ [pyStrip cur]) ++ ws) [] rest
    else
      packSentences chunk_size chunk_overlap
        (if cur = [] then chunks else chunks ++ [pyStrip cur]) s rest

/-- Processing of one section (document_processor.py lines 151-180): emit it
verbatim when it fits, otherwise pack its sentences. -/
def processSection (chunk_size chunk_overlap : ℤ) (chunks : List PyStr)
    (section0 : PyStr) : Option (List PyStr) :=
  if pyStrip section0 = [] then some chunks
  else if ((pyStrip section0).length : ℤ) ≤ chunk_size then
    some (chunks ++ [pyStrip section0])
  else packSentences chunk_size chunk_overlap chunks [] (sentSplit (pyStrip section0))

/-- The `for section in sections` loop (document_processor.py lines 151-180). -/
def processSections (chunk_size chunk_overlap : ℤ) (chunks : List PyStr) :
    List PyStr → Option (List PyStr)
  | [] => some chunks
  | sec :: rest =>
    match processSection chunk_size chunk_overlap chunks sec with
    | none => none
    | some chunks2 => processSections chunk_size chunk_overlap chunks2 rest

/-- Embedding of `intelligent_chunk` (document_processor.py lines 123-185).
`none` models the `ValueError` escaping from `range(0, n, 0)` when
`chunk_overlap == chunk_size` and the character-level split is reached. -/
def intelligent_chunk (text : PyStr) (chunk_size chunk_overlap : ℤ) :
    Option (List PyStr) :=
  if pyStrip text = [] then some []
  else
    match processSections chunk_size chunk_overlap []
        (buildSections [] [] (splitOnNl text)) with
    | none => none
    | some chunks => some (chunks.filter (fun c => 20 ≤ c.length))

/-- The chunk indices attached by `process_and_store` (document_processor.py
lines 225-226): `{"chunk_index": i}` for `i in range(len(chunks))`. -/
def chunk_metadata_indices (chunks : List PyStr) : List ℕ :=
  List.range chunks.length

-- ──────────────────────────────────────────────────────────────────
-- Helper lemmas
-- ──────────────────────────────────────────────────────────────────

/-- The head of `dropWhile p l` never satisfies `p`. -/
theorem head?_dropWhile_false (p : Char → Bool) :
    ∀ l : List Char, ∀ c, (l.dropWhile p).head? = some c → p c = false := by
  intro l
  induction l with
  | nil => intro c hc; cases hc
  | cons a t ih =>
    intro c hc
    rw [List.dropWhile_cons] at hc
    by_cases hpa : p a = true
    · exact ih c (by simpa [hpa] using hc)
    · have hac : a = c := by simpa [hpa] using hc
      subst hac
      simpa using hpa

/-- If the head of `l` fails `p`, `dropWhile p` leaves `l` unchanged. -/
theorem dropWhile_eq_self_of_head (p : Char → Bool) (l : List Char)
    (h : ∀ c, l.head? = some c → p c = false) : l.dropWhile p = l := by
  cases l with
  | nil => rfl
  | cons a t => rw [List.dropWhile_cons, if_neg (by simp [h a rfl])]

/-- A stripped string does not start with whitespace. -/
theorem pyStrip_head (s : PyStr) :
    ∀ c, (pyStrip s).head? = some c → pyIsSpace c = false := by
  intro c hc
  unfold pyStrip at hc
  have hgl : ((s.dropWhile pyIsSpace).reverse.dropWhile pyIsSpace).getLast? = some c := by
    simpa using hc
  have ht2ne : (s.dropWhile pyIsSpace).reverse.dropWhile pyIsSpace ≠ [] := by
    intro h0
    rw [h0] at hgl; cases hgl
  obtain ⟨pre, hpre⟩ := List.dropWhile_suffix (l := (s.dropWhile pyIsSpace).reverse) pyIsSpace
  have hrev : (s.dropWhile pyIsSpace).reverse.getLast? = some c := by
    rw [← hpre, List.getLast?_append_of_ne_nil pre ht2ne]
    exact hgl
  have hh : (s.dropWhile pyIsSpace).head? = some c := by simpa using hrev
  exact head?_dropWhile_false pyIsSpace s c hh

/-- A stripped string does not end with whitespace. -/
theorem pyStrip_last (s : PyStr) :
    ∀ c, (pyStrip s).getLast? = some c → pyIsSpace c = false := by
  intro c hc
  unfold pyStrip at hc
  have hh : ((s.dropWhile pyIsSpace).reverse.dropWhile pyIsSpace).head? = some c := by
    simpa using hc
  exact head?_dropWhile_false _ _ c hh

/-- Stripping is idempotent. -/
theorem pyStrip_idem (s : PyStr) : pyStrip (pyStrip s) = pyStrip s := by
  have h1 : (pyStrip s).dropWhile pyIsSpace = pyStrip s :=
    dropWhile_eq_self_of_head _ _ (pyStrip_head s)
  show (((pyStrip s).dropWhile pyIsSpace).reverse.dropWhile pyIsSpace).reverse = pyStrip s
  rw [h1]
  have h2 : (pyStrip s).reverse.dropWhile pyIsSpace = (pyStrip s).reverse := by
    apply dropWhile_eq_self_of_head
    intro c hc
    exact pyStrip_last s c (by simpa using hc)
  rw [h2, List.reverse_reverse]

/-- `roundHalfEven` of a nonnegative rational is nonnegative. -/
theorem roundHalfEven_nonneg {y : ℚ} (h : 0 ≤ y) : 0 ≤ roundHalfEven y := by
  have hn : (0:ℤ) ≤ ⌊y⌋ := Int.floor_nonneg.mpr h
  unfold roundHalfEven
  split
  · exact hn
  · split
    · omega
    · split <;> omega

/-- `roundHalfEven` never exceeds an integer upper bound of its input. -/
theorem roundHalfEven_le {y : ℚ} {m : ℤ} (h : y ≤ (m:ℚ)) : roundHalfEven y ≤ m := by
  have hfl : ⌊y⌋ ≤ m := by
    have h2 := Int.floor_le_floor h
    simpa using h2
  unfold roundHalfEven
  split
  · exact hfl
  · rename_i hge
    have hge2 : 1/2 ≤ y - ⌊y⌋ := by linarith [not_lt.mp hge]
    have hlt : (⌊y⌋ : ℚ) < y := by linarith
    have hc : ⌊y⌋ < ⌈y⌉ := Int.lt_ceil.mpr hlt
    have hcm : ⌈y⌉ ≤ m := Int.ceil_le.mpr h
    split
    · omega
    · split <;> omega

/-- `pyRound4` preserves nonnegativity. -/
theorem pyRound4_nonneg {x : ℚ} (h : 0 ≤ x) : 0 ≤ pyRound4 x := by
  unfold pyRound4
  have h1 : (0:ℤ) ≤ roundHalfEven (x * 10000) := roundHalfEven_nonneg (by positivity)
  apply div_nonneg _ (by norm_num)
  exact_mod_cast h1

/-- `pyRound4` preserves the upper bound 1. -/
theorem pyRound4_le_one {x : ℚ} (h : x ≤ 1) : pyRound4 x ≤ 1 := by
  unfold pyRound4
  have h1 : roundHalfEven (x * 10000) ≤ (10000:ℤ) := by
    apply roundHalfEven_le
    push_cast
    linarith
  rw [div_le_one (by norm_num)]
  exact_mod_cast h1

-- ──────────────────────────────────────────────────────────────────
-- Claims
-- ──────────────────────────────────────────────────────────────────

/-- C10: `compute_retrieval_confidence` applied to the empty similarity-score
list returns exactly 0.0 — not the neutral 0.5 the scorer uses for other
unmeasurable signals. -/
theorem c10_retrieval_confidence_empty :
    compute_retrieval_confidence [] = 0 ∧ compute_retrieval_confidence [] ≠ 0.5 := by
  constructor
  · rfl
  · show (0:ℚ) ≠ 0.5
    norm_num

/-- C8: `_is_junk_value` satisfies the spec's test vectors: true on `N/A`,
`---`, and `Carrier MC Phone Equipment Amount`, and false on
`FastFreight LLC`. -/
theorem c8_junk_judge_vectors :
    is_junk_value (("N/A").toList) = true ∧
    is_junk_value (("---").toList) = true ∧
    is_junk_value (("Carrier MC Phone Equipment Amount").toList) = true ∧
    is_junk_value (("FastFreight LLC").toList) = false := by
  refine ⟨by decide, by decide, by decide, by decide⟩

/-- C7: the composite confidence equals
`round4(clamp(0.40·retrieval + 0.35·coverage + 0.25·agreement))` and lies in
`[0, 1]` for every similarity-score list (including the empty one), answer,
source-text list and chunk list. -/
theorem c7_composite_confidence_bounds (similarity_scores : List ℚ)
    (answer : PyStr) (source_texts : List PyStr) (chunks : List ChunkDoc) :
    compute_composite_confidence similarity_scores answer source_texts chunks =
      pyRound4 (min 1 (max 0
        (0.40 * compute_retrieval_confidence similarity_scores +
         0.35 * compute_answer_coverage answer source_texts +
         0.25 * compute_chunk_agreement chunks answer))) ∧
    0 ≤ compute_composite_confidence similarity_scores answer source_texts chunks ∧
    compute_composite_confidence similarity_scores answer source_texts chunks ≤ 1 := by
  refine ⟨rfl, ?_, ?_⟩
  · exact pyRound4_nonneg (le_min (by norm_num) (le_max_left 0 _))
  · exact pyRound4_le_one (min_le_left 1 _)

/-- C3 counterexample: the answer `"the"` has no significant words, yet with
an empty source list `compute_answer_coverage` returns 0.0, not the neutral
0.5 the claim asserts for every source-text list. -/
theorem c3_coverage_counterexample :
    significant_words (pyLower (("the").toList)) = [] ∧
    compute_answer_coverage (("the").toList) [] = 0 ∧
    ¬ compute_answer_coverage (("the").toList) [] = 0.5 := by
  refine ⟨by decide, by rfl, ?_⟩
  show ¬ (0:ℚ) = 0.5
  norm_num

/-- C3 (amended): `compute_answer_coverage` returns the neutral 0.5 whenever
the answer is non-empty, the source list is non-empty, and the answer has no
significant words; with an empty answer or an empty source list the earlier
guard returns 0.0 instead. -/
theorem c3_coverage_neutral (answer : PyStr) (source_texts : List PyStr)
    (ha : answer ≠ []) (hs : source_texts ≠ [])
    (hsig : significant_words (pyLower answer) = []) :
    compute_answer_coverage answer source_texts = 0.5 := by
  simp [compute_answer_coverage, ha, hs, hsig]

/-- C3 witness: a concrete instance of the amended neutral-value theorem. -/
theorem c3_coverage_neutral_witness :
    compute_answer_coverage (("the").toList) [("x").toList] = 0.5 :=
  c3_coverage_neutral (("the").toList) [("x").toList]
    (by decide) (by decide) (by decide)

/-- C2: `check_guardrails` evaluates its refusal rules in a fixed order with
the first applicable rule winning: (1) confidence strictly below threshold,
(2) best similarity score present and below 0.25, (3) a hallucination phrase
contained in the answer (the answer is kept, prefixed with the caution
marker), (4) trimmed answer shorter than 10 characters; when no rule applies
it returns untriggered with the original answer unchanged; and a call with
confidence 0.2 and threshold 0.45 always triggers rule 1 regardless of the
answer and scores. -/
theorem c2_guardrails_rule_order (answer : PyStr) (confidence : ℚ)
    (similarity_scores : List ℚ) (threshold : ℚ) :
    (confidence < threshold →
      check_guardrails answer confidence similarity_scores threshold =
        (true, some (GuardrailMsg.lowConfidence confidence threshold),
          notFoundLowConfidence)) ∧
    (¬ confidence < threshold →
      ∀ s0 rest, similarity_scores = s0 :: rest → s0 < 0.25 →
      check_guardrails answer confidence similarity_scores threshold =
        (true, some (GuardrailMsg.lowSimilarity s0), notFoundLowSimilarity)) ∧
    (¬ confidence < threshold →
      (∀ s0, similarity_scores.head? = some s0 → ¬ s0 < 0.25) →
      ∀ phrase, find_hallucination_phrase (pyLower answer) = some phrase →
      check_guardrails answer confidence similarity_scores threshold =
        (true, some (GuardrailMsg.hallucinationPhrase phrase),
          cautionMarker ++ answer)) ∧
    (¬ confidence < threshold →
      (∀ s0, similarity_scores.head? = some s0 → ¬ s0 < 0.25) →
      find_hallucination_phrase (pyLower answer) = none →
      (pyStrip answer).length < 10 →
      check_guardrails answer confidence similarity_scores threshold =
        (true, some GuardrailMsg.tooShort, notFoundTooShort)) ∧
    (¬ confidence < threshold →
      (∀ s0, similarity_scores.head? = some s0 → ¬ s0 < 0.25) →
      find_hallucination_phrase (pyLower answer) = none →
      ¬ (pyStrip answer).length < 10 →
      check_guardrails answer confidence similarity_scores threshold =
        (false, none, answer)) ∧
    (confidence = 0.2 → threshold = 0.45 →
      check_guardrails answer confidence similarity_scores threshold =
        (true, some (GuardrailMsg.lowConfidence confidence threshold),
          notFoundLowConfidence)) := by
  refine ⟨?_, ?_, ?_, ?_, ?_, ?_⟩
  · intro h1
    simp [check_guardrails, h1]
  · intro h1 s0 rest hs hlt
    subst hs
    simp [check_guardrails, h1, hlt]
  · intro h1 h2 phrase hp
    have htail : check_guardrails_tail answer =
        (true, some (GuardrailMsg.hallucinationPhrase phrase),
          cautionMarker ++ answer) := by
      simp [check_guardrails_tail, hp]
    cases similarity_scores with
    | nil => simp [check_guardrails, h1, htail]
    | cons s0 rest =>
      have hns : ¬ s0 < 0.25 := h2 s0 rfl
      simp [check_guardrails, h1, hns, htail]
  · intro h1 h2 hp hlen
    have htail : check_guardrails_tail answer =
        (true, some GuardrailMsg.tooShort, notFoundTooShort) := by
      simp [check_guardrails_tail, hp, hlen]
    cases similarity_scores with
    | nil => simp [check_guardrails, h1, htail]
    | cons s0 rest =>
      have hns : ¬ s0 < 0.25 := h2 s0 rfl
      simp [check_guardrails, h1, hns, htail]
  · intro h1 h2 hp hlen
    have htail : check_guardrails_tail answer = (false, none, answer) := by
      simp [check_guardrails_tail, hp, hlen]
    cases similarity_scores with
    | nil => simp [check_guardrails, h1, htail]
    | cons s0 rest =>
      have hns : ¬ s0 < 0.25 := h2 s0 rfl
      simp [check_guardrails, h1, hns, htail]
  · intro hc ht
    subst hc
    subst ht
    simp [check_guardrails, show (0.2:ℚ) < 0.45 by norm_num]

/-- C2 witness: rule 1 fires for a concrete call with confidence 0.2 and
threshold 0.45, and a concrete untriggered call passes the answer through. -/
theorem c2_guardrails_witness :
    check_guardrails (("anything").toList) 0.2 [(0.9:ℚ)] 0.45 =
      (true, some (GuardrailMsg.lowConfidence 0.2 0.45), notFoundLowConfidence) ∧
    check_guardrails (("The rate is 2500 dollars total.").toList) 0.9 [(0.8:ℚ)] 0.45 =
      (false, none, ("The rate is 2500 dollars total.").toList) := by
  constructor
  · exact (c2_guardrails_rule_order (("anything").toList) 0.2 [(0.9:ℚ)] 0.45).1
      (by norm_num)
  · refine (c2_guardrails_rule_order (("The rate is 2500 dollars total.").toList)
      0.9 [(0.8:ℚ)] 0.45).2.2.2.2.1 (by norm_num) ?_ (by decide) (by decide)
    intro s0 hs
    simp only [List.head?_cons, Option.some.injEq] at hs
    subst hs
    norm_num

/-- C5: `_find_value_after_label` returns the first capture group — trimmed
and truncated to 150 characters — of the earliest pattern whose captured
value is not judged junk; a junk capture is treated as a non-match and
scanning continues; the result is absent when every pattern fails to match
or captures junk. -/
theorem c5_find_value_after_label (text : PyStr) :
    (∀ (l1 : List LabelPattern) (p : LabelPattern) (l2 : List LabelPattern)
        (g : PyStr),
      (∀ q ∈ l1, ∀ g2, q text = some g2 → is_junk_value (pyStrip g2) = true) →
      p text = some g → is_junk_value (pyStrip g) = false →
      find_value_after_label text (l1 ++ p :: l2) =
        some ((pyStrip g).take 150)) ∧
    (∀ ps : List LabelPattern,
      (∀ q ∈ ps, ∀ g2, q text = some g2 → is_junk_value (pyStrip g2) = true) →
      find_value_after_label text ps = none) := by
  constructor
  · intro l1
    induction l1 with
    | nil =>
      intro p l2 g _ hp hjunk
      simp [find_value_after_label, hp, hjunk]
    | cons q l1 ih =>
      intro p l2 g hall hp hjunk
      have hq := hall q (List.mem_cons_self q l1)
      have hrest : ∀ r ∈ l1, ∀ g2, r text = some g2 →
          is_junk_value (pyStrip g2) = true :=
        fun r hr => hall r (List.mem_cons_of_mem q hr)
      cases hqt : q text with
      | none =>
        simpa [find_value_after_label, hqt] using ih p l2 g hrest hp hjunk
      | some g2 =>
        have hjg2 := hq g2 hqt
        simpa [find_value_after_label, hqt, hjg2] using ih p l2 g hrest hp hjunk
  · intro ps
    induction ps with
    | nil => intro h0; rfl
    | cons q ps ih =>
      intro hall
      have hq := hall q (List.mem_cons_self q ps)
      have hrest : ∀ r ∈ ps, ∀ g2, r text = some g2 →
          is_junk_value (pyStrip g2) = true :=
        fun r hr => hall r (List.mem_cons_of_mem q hr)
      cases hqt : q text with
      | none => simpa [find_value_after_label, hqt] using ih hrest
      | some g2 =>
        have hjg2 := hq g2 hqt
        simpa [find_value_after_label, hqt, hjg2] using ih hrest

-- ──────────────────────────────────────────────────────────────────
-- Support lemmas for the rate-extraction claim
-- ──────────────────────────────────────────────────────────────────

/-- On a list all of whose elements satisfy `p`, `takeWhile` is the identity
and `dropWhile` empties it. -/
theorem takeWhile_all (p : Char → Bool) (l : List Char)
    (h : ∀ c ∈ l, p c = true) :
    l.takeWhile p = l ∧ l.dropWhile p = [] := by
  induction l with
  | nil => exact ⟨rfl, rfl⟩
  | cons a t ih =>
    have ha := h a (List.mem_cons_self a t)
    obtain ⟨h1, h2⟩ := ih (fun c hc => h c (List.mem_cons_of_mem a hc))
    constructor
    · simp [List.takeWhile_cons, ha, h1]
    · simp [List.dropWhile_cons, ha, h2]

/-- `takeWhile`/`dropWhile` across a satisfying prefix followed by a failing
continuation. -/
theorem takeWhile_dropWhile_append (p : Char → Bool) (l1 l2 : List Char)
    (h1 : ∀ c ∈ l1, p c = true) (h2 : ∀ c, l2.head? = some c → p c = false) :
    (l1 ++ l2).takeWhile p = l1 ∧ (l1 ++ l2).dropWhile p = l2 := by
  induction l1 with
  | nil =>
    simp only [List.nil_append]
    cases l2 with
    | nil => exact ⟨rfl, rfl⟩
    | cons c t =>
      have hc := h2 c rfl
      constructor
      · simp [List.takeWhile_cons, hc]
      · simp [List.dropWhile_cons, hc]
  | cons a l1 ih =>
    have ha := h1 a (List.mem_cons_self a l1)
    obtain ⟨iht, ihd⟩ := ih (fun c hc => h1 c (List.mem_cons_of_mem a hc))
    constructor
    · simpa [List.takeWhile_cons, ha] using iht
    · simpa [List.dropWhile_cons, ha] using ihd

/-- Shape of a successful dollar-pattern match: a nonempty `[\d,]` run, a
dot, and two digits. -/
theorem matchDollarAt_shape (s g r : PyStr) (h : matchDollarAt s = some (g, r)) :
    ∃ run d1 d2, g = run ++ ('.') :: d1 :: d2 :: [] ∧ run ≠ [] ∧
      (∀ c ∈ run, (c.isDigit || c = ',') = true) ∧
      d1.isDigit = true ∧ d2.isDigit = true := by
  unfold matchDollarAt at h
  split at h
  · simp at h
  · rename_i hrun
    split at h
    · rename_i d1 d2 rest2 heq
      split at h
      · rename_i hd
        rw [Option.some.injEq, Prod.mk.injEq] at h
        obtain ⟨hg, -⟩ := h
        rw [Bool.and_eq_true] at hd
        refine ⟨_, d1, d2, hg.symm, hrun, ?_, hd.1, hd.2⟩
        intro c hc
        exact @List.mem_takeWhile_imp Char (fun x => x.isDigit || decide (x = ','))
          (s.dropWhile pyIsSpace) c hc
      · simp at h
    · simp at h

/-- Every match emitted by the dollar scanner has the dollar-pattern shape. -/
theorem scanDollarFuel_shape : ∀ (fuel : ℕ) (s : PyStr), ∀ m ∈ scanDollarFuel fuel s,
    ∃ run d1 d2, m = run ++ ('.') :: d1 :: d2 :: [] ∧ run ≠ [] ∧
      (∀ c ∈ run, (c.isDigit || c = ',') = true) ∧
      d1.isDigit = true ∧ d2.isDigit = true := by
  intro fuel
  induction fuel with
  | zero => intro s m hm; simp [scanDollarFuel] at hm
  | succ fuel ih =>
    intro s m hm
    cases s with
    | nil => simp [scanDollarFuel] at hm
    | cons c rest =>
      rw [scanDollarFuel] at hm
      by_cases hc : c = '$'
      · rw [if_pos hc] at hm
        cases hmd : matchDollarAt rest with
        | some pr =>
          obtain ⟨g, rest2⟩ := pr
          rw [hmd] at hm
          rcases List.mem_cons.mp hm with rfl | hm2
          · exact matchDollarAt_shape rest m rest2 hmd
          · exact ih rest2 m hm2
        | none =>
          rw [hmd] at hm
          exact ih rest m hm
      · rw [if_neg hc] at hm
        exact ih rest m hm

/-- A digit character is not a comma. -/
theorem digit_not_comma {c : Char} (h : c.isDigit = true) : ¬ c = ',' := by
  intro hc
  rw [hc] at h
  exact absurd h (by decide)

/-- `removeCommas` leaves an all-digit list unchanged. -/
theorem removeCommas_digits (l : PyStr) (h : ∀ c ∈ l, c.isDigit = true) :
    removeCommas l = l := by
  unfold removeCommas
  rw [List.filter_eq_self]
  intro c hc
  exact decide_eq_true (digit_not_comma (h c hc))

/-- Filtering the commas out of a `[\d,]` run leaves only digits. -/
theorem removeCommas_run_digits (run : PyStr)
    (h : ∀ c ∈ run, (c.isDigit || c = ',') = true) :
    ∀ c ∈ removeCommas run, c.isDigit = true := by
  intro c hc
  unfold removeCommas at hc
  rw [List.mem_filter] at hc
  obtain ⟨hmem, hne⟩ := hc
  have := h c hmem
  rw [Bool.or_eq_true] at this
  rcases this with hd | hcomma
  · exact hd
  · exact absurd (by simpa using hcomma) (by simpa using hne)

/-- Value of `pyFloatCore` on a digit run followed by `.` and two digits. -/
theorem pyFloatCore_digits_frac2 (ip : PyStr) (d1 d2 : Char)
    (hip : ∀ c ∈ ip, c.isDigit = true)
    (h1 : d1.isDigit = true) (h2 : d2.isDigit = true) :
    pyFloatCore (ip ++ ('.') :: d1 :: d2 :: []) =
      some ((digitsVal ip : ℚ) + (digitsVal (d1 :: d2 :: []) : ℚ) / 100) := by
  have hdot : ∀ c, (('.') :: d1 :: d2 :: [] : List Char).head? = some c →
      Char.isDigit c = false := by
    intro c hc
    have hc2 : '.' = c := by simpa using hc
    subst hc2
    decide
  obtain ⟨htw, hdw⟩ := takeWhile_dropWhile_append Char.isDigit ip _ hip hdot
  have hfr : ∀ c ∈ (d1 :: d2 :: [] : List Char), Char.isDigit c = true := by
    intro c hc
    rcases List.mem_cons.mp hc with rfl | hc2
    · exact h1
    · rcases List.mem_cons.mp hc2 with rfl | hc3
      · exact h2
      · simp at hc3
  obtain ⟨hfw, hfd⟩ := takeWhile_all Char.isDigit (d1 :: d2 :: []) hfr
  unfold pyFloatCore
  rw [hdw, htw]
  split
  · rename_i heq
    simp at heq
  · rename_i c fr heq
    have hc : c = '.' ∧ fr = d1 :: d2 :: [] := by
      constructor
      · injection heq with ha hb
        exact ha.symm
      · injection heq with ha hb
        exact hb.symm
    obtain ⟨rfl, rfl⟩ := hc
    rw [if_pos rfl, hfd, if_pos rfl, hfw]
    rw [if_neg (by simp)]
    norm_num

/-- Value of `pyFloatCore` on a nonempty pure digit run. -/
theorem pyFloatCore_digits (ip : PyStr) (hne : ip ≠ [])
    (hip : ∀ c ∈ ip, c.isDigit = true) :
    pyFloatCore ip = some ((digitsVal ip : ℚ)) := by
  obtain ⟨htw, hdw⟩ := takeWhile_all Char.isDigit ip hip
  unfold pyFloatCore
  rw [hdw]
  change (if ip.takeWhile Char.isDigit = [] then none
    else some ((digitsVal (ip.takeWhile Char.isDigit) : ℚ))) = _
  rw [htw, if_neg hne]

/-- A digit character is neither `+` nor `-`. -/
theorem digit_not_sign {c : Char} (h : c.isDigit = true) :
    ¬ c = '+' ∧ ¬ c = '-' := by
  constructor
  · intro hc; rw [hc] at h; exact absurd h (by decide)
  · intro hc; rw [hc] at h; exact absurd h (by decide)

/-- Value of `pyFloat` on a nonempty pure digit run. -/
theorem pyFloat_digits (ip : PyStr) (hne : ip ≠ [])
    (hip : ∀ c ∈ ip, c.isDigit = true) :
    pyFloat ip = some ((digitsVal ip : ℚ)) := by
  rw [← pyFloatCore_digits ip hne hip]
  cases ip with
  | nil => exact absurd rfl hne
  | cons d ip2 =>
    have hd := hip d (List.mem_cons_self d ip2)
    obtain ⟨hp, hm⟩ := digit_not_sign hd
    simp [pyFloat, hp, hm]

/-- `pyFloat` delegates to `pyFloatCore` when the input starts with a digit
run followed by a dot. -/
theorem pyFloat_digits_frac2 (ip : PyStr) (d1 d2 : Char)
    (hip : ∀ c ∈ ip, c.isDigit = true)
    (h1 : d1.isDigit = true) (h2 : d2.isDigit = true) :
    pyFloat (ip ++ ('.') :: d1 :: d2 :: []) =
      some ((digitsVal ip : ℚ) + (digitsVal (d1 :: d2 :: []) : ℚ) / 100) := by
  rw [← pyFloatCore_digits_frac2 ip d1 d2 hip h1 h2]
  cases ip with
  | nil => simp [pyFloat]
  | cons d ip2 =>
    have hd := hip d (List.mem_cons_self d ip2)
    obtain ⟨hp, hm⟩ := digit_not_sign hd
    simp [pyFloat, hp, hm]

/-- A decimal digit renders to a digit character with the expected code. -/
theorem chr_digit (d : ℕ) (hd : d < 10) :
    (Char.ofNat (48 + d)).isDigit = true ∧ (Char.ofNat (48 + d)).toNat = 48 + d := by
  interval_cases d <;> exact ⟨by decide, by decide⟩

/-- Appending one character multiplies the accumulated value by ten. -/
theorem digitsVal_append_single (l : PyStr) (c : Char) :
    digitsVal (l ++ c :: []) = 10 * digitsVal l + (c.toNat - 48) := by
  unfold digitsVal
  rw [List.foldl_append]
  rfl

/-- All digits produced by `natDigitsFuel` are below ten. -/
theorem natDigitsFuel_all_lt : ∀ (fuel n : ℕ), ∀ d ∈ natDigitsFuel fuel n, d < 10 := by
  intro fuel
  induction fuel with
  | zero => intro n d hd; simp [natDigitsFuel] at hd
  | succ fuel ih =>
    intro n d hd
    cases n with
    | zero => simp [natDigitsFuel] at hd
    | succ m =>
      rw [natDigitsFuel] at hd
      rcases List.mem_cons.mp hd with rfl | hd2
      · omega
      · exact ih _ d hd2

/-- With sufficient fuel, `natDigitsFuel` computes the decimal digits. -/
theorem natDigitsFuel_ofDigits : ∀ (fuel n : ℕ), n ≤ fuel →
    Nat.ofDigits 10 (natDigitsFuel fuel n) = n := by
  intro fuel
  induction fuel with
  | zero =>
    intro n hn
    interval_cases n
    simp [natDigitsFuel]
  | succ fuel ih =>
    intro n hn
    cases n with
    | zero => simp [natDigitsFuel]
    | succ m =>
      have hdiv : (m + 1) / 10 ≤ fuel := by omega
      rw [natDigitsFuel, Nat.ofDigits_cons, ih ((m + 1) / 10) hdiv]
      omega

/-- Positional evaluation of rendered digits agrees with `Nat.ofDigits`. -/
theorem digitsVal_digit_list : ∀ ds : List ℕ, (∀ d ∈ ds, d < 10) →
    digitsVal (ds.reverse.map (fun d => Char.ofNat (48 + d))) = Nat.ofDigits 10 ds := by
  intro ds
  induction ds with
  | nil => intro h0; rfl
  | cons d ds ih =>
    intro h
    have hd := h d (List.mem_cons_self d ds)
    rw [List.reverse_cons, List.map_append, List.map_singleton,
      digitsVal_append_single, ih (fun e he => h e (List.mem_cons_of_mem d he)),
      Nat.ofDigits_cons, (chr_digit d hd).2]
    omega

/-- `natToChars` renders only digit characters and evaluates back to `n`. -/
theorem digitsVal_natToChars (n : ℕ) :
    (∀ c ∈ natToChars n, c.isDigit = true) ∧ digitsVal (natToChars n) = n := by
  unfold natToChars
  by_cases h : n = 0
  · subst h
    exact ⟨by decide, by decide⟩
  · rw [if_neg h]
    constructor
    · intro c hc
      rw [List.mem_map] at hc
      obtain ⟨d, hd, rfl⟩ := hc
      have hd10 : d < 10 := natDigitsFuel_all_lt n n d (List.mem_reverse.mp hd)
      exact (chr_digit d hd10).1
    · rw [digitsVal_digit_list _ (natDigitsFuel_all_lt n n)]
      exact natDigitsFuel_ofDigits n n le_rfl

/-- `natToChars2` renders two digit characters evaluating back to `k`. -/
theorem natToChars2_spec (k : ℕ) (hk : k < 100) :
    (∀ c ∈ natToChars2 k, c.isDigit = true) ∧ digitsVal (natToChars2 k) = k := by
  have h1 : k / 10 < 10 := by omega
  have h2 : k % 10 < 10 := by omega
  constructor
  · intro c hc
    unfold natToChars2 at hc
    rcases List.mem_cons.mp hc with rfl | hc2
    · exact (chr_digit _ h1).1
    · rcases List.mem_cons.mp hc2 with rfl | hc3
      · exact (chr_digit _ h2).1
      · simp at hc3
  · show digitsVal ((Char.ofNat (48 + k / 10)) :: (Char.ofNat (48 + k % 10)) :: []) = k
    unfold digitsVal
    simp only [List.foldl_cons, List.foldl_nil]
    rw [(chr_digit _ h1).2, (chr_digit _ h2).2]
    omega

/-- Parsing back a two-decimal rendering recovers the exact value. -/
theorem pyFloat_formatFixed2 (n : ℕ) :
    pyFloat (formatFixed2 ((n : ℚ) / 100)) = some ((n : ℚ) / 100) := by
  have hmul : ((n : ℚ) / 100) * 100 = (n : ℚ) := by
    field_simp
  have hrhe : roundHalfEven (((n : ℚ) / 100) * 100) = (n : ℤ) := by
    rw [hmul]
    unfold roundHalfEven
    rw [Int.floor_natCast]
    simp
  show pyFloat (natToChars ((roundHalfEven (((n : ℚ) / 100) * 100)).toNat / 100) ++
    ('.') :: natToChars2 ((roundHalfEven (((n : ℚ) / 100) * 100)).toNat % 100)) = _
  rw [hrhe, Int.toNat_natCast]
  obtain ⟨hipd, hipv⟩ := digitsVal_natToChars (n / 100)
  obtain ⟨hfpd, hfpv⟩ := natToChars2_spec (n % 100) (by omega)
  have hshape : natToChars2 (n % 100) =
      (Char.ofNat (48 + (n % 100) / 10)) :: (Char.ofNat (48 + (n % 100) % 10)) :: [] := rfl
  have hd1 : (Char.ofNat (48 + (n % 100) / 10)).isDigit = true :=
    hfpd _ (by rw [hshape]; exact List.mem_cons_self _ _)
  have hd2 : (Char.ofNat (48 + (n % 100) % 10)).isDigit = true :=
    hfpd _ (by rw [hshape]; exact List.mem_cons_of_mem _ (List.mem_cons_self _ _))
  rw [hshape, pyFloat_digits_frac2 _ _ _ hipd hd1 hd2]
  rw [← hshape, hfpv, hipv]
  have hn : (n / 100) * 100 + n % 100 = n := by omega
  have hcast : ((n : ℚ)) = ((n / 100 : ℕ) : ℚ) * 100 + ((n % 100 : ℕ) : ℚ) := by
    exact_mod_cast congrArg (Nat.cast : ℕ → ℚ) hn.symm
  rw [Option.some.injEq, hcast]
  ring

/-- Python `max` over a nonempty list is a member bounding every element. -/
theorem pyMaxQ_spec : ∀ (l : List ℚ) (a : ℚ),
    pyMaxQ (a :: l) ∈ a :: l ∧ ∀ x ∈ a :: l, x ≤ pyMaxQ (a :: l) := by
  intro l
  induction l with
  | nil =>
    intro a
    constructor
    · simp [pyMaxQ]
    · intro x hx
      rw [List.mem_singleton] at hx
      subst hx
      simp [pyMaxQ]
  | cons b l ih =>
    intro a
    have h1 : pyMaxQ (a :: b :: l) = pyMaxQ (max a b :: l) := rfl
    obtain ⟨hmem, hbound⟩ := ih (max a b)
    constructor
    · rw [h1]
      rcases List.mem_cons.mp hmem with h | h
      · rw [h]
        rcases max_choice a b with h2 | h2 <;> rw [h2] <;> simp
      · simp [h]
    · intro x hx
      rw [h1]
      rcases List.mem_cons.mp hx with rfl | hx2
      · exact le_trans (le_max_left x b) (hbound _ (List.mem_cons_self _ _))
      · rcases List.mem_cons.mp hx2 with rfl | hx3
        · exact le_trans (le_max_right a x) (hbound _ (List.mem_cons_self _ _))
        · exact hbound x (List.mem_cons_of_mem _ hx3)

/-- Every amount collected by the fallback dollar scan is an exact
two-decimal value strictly between 10 and 1,000,000. -/
theorem dollar_amounts_shape (text : PyStr) :
    ∀ v ∈ dollar_amounts text,
      (∃ n : ℕ, v = (n : ℚ) / 100) ∧ 10 < v ∧ v < 1000000 := by
  intro v hv
  unfold dollar_amounts at hv
  rw [List.mem_filterMap] at hv
  obtain ⟨m, hm, hf⟩ := hv
  cases hpf : pyFloat (removeCommas m) with
  | none => rw [hpf] at hf; simp at hf
  | some w =>
    rw [hpf] at hf
    change (if 10 < w ∧ w < 1000000 then some w else none) = some v at hf
    by_cases hrange : 10 < w ∧ w < 1000000
    · rw [if_pos hrange, Option.some.injEq] at hf
      subst hf
      refine ⟨?_, hrange⟩
      obtain ⟨run, d1, d2, hm2, hne, hrun, hd1, hd2⟩ :=
        scanDollarFuel_shape text.length text m hm
      subst hm2
      have hdigits := removeCommas_run_digits run hrun
      have hno : ∀ c ∈ (('.') :: d1 :: d2 :: [] : List Char), ¬ c = ',' := by
        intro c hc
        rcases List.mem_cons.mp hc with rfl | hc2
        · decide
        · rcases List.mem_cons.mp hc2 with rfl | hc3
          · exact digit_not_comma hd1
          · rcases List.mem_cons.mp hc3 with rfl | hc4
            · exact digit_not_comma hd2
            · simp at hc4
      have happ : removeCommas (run ++ ('.') :: d1 :: d2 :: []) =
          removeCommas run ++ ('.') :: d1 :: d2 :: [] := by
        unfold removeCommas
        rw [List.filter_append]
        congr 1
        rw [List.filter_eq_self]
        intro c hc
        simpa using hno c hc
      rw [happ] at hpf
      rw [pyFloat_digits_frac2 _ _ _ hdigits hd1 hd2, Option.some.injEq] at hpf
      refine ⟨100 * digitsVal (removeCommas run) + digitsVal (d1 :: d2 :: []), ?_⟩
      rw [← hpf]
      push_cast
      ring
    · rw [if_neg hrange] at hf
      simp at hf

/-- The labeled rate cascade only ever returns a string whose parsed value
lies strictly between 10 and 1,000,000. -/
theorem rate_from_patterns_sound (text : PyStr) :
    ∀ (pats : List LabelPattern) (r : PyStr),
      rate_from_patterns text pats = some r →
      ∃ q, pyFloat r = some q ∧ 10 < q ∧ q < 1000000 := by
  intro pats
  induction pats with
  | nil => intro r h; cases h
  | cons p ps ih =>
    intro r h
    rw [rate_from_patterns] at h
    split at h
    · exact ih r h
    · rename_i g heq
      split at h
      · exact ih r h
      · rename_i q hq
        split at h
        · rename_i hrange
          rw [Option.some.injEq] at h
          subst h
          exact ⟨q, hq, hrange⟩
        · exact ih r h

/-- C5 witness: with a non-matching first pattern, the second pattern wins
and its capture is returned trimmed. -/
theorem c5_find_value_witness :
    find_value_after_label (("Shipper: ABC Corp").toList)
      [fun _ => none, fun _ => some (("  ABC Corp  ").toList)] =
      some (("ABC Corp").toList) := by
  have hfirst : ∀ q ∈ ([fun _ => none] : List LabelPattern), ∀ g2,
      q (("Shipper: ABC Corp").toList) = some g2 →
      is_junk_value (pyStrip g2) = true := by
    intro q hq g2 hg2
    rw [List.mem_singleton] at hq
    subst hq
    exact absurd hg2 (by simp)
  have h := (c5_find_value_after_label (("Shipper: ABC Corp").toList)).1
    [fun _ => none] (fun _ => some (("  ABC Corp  ").toList)) []
    (("  ABC Corp  ").toList) hfirst rfl (by decide)
  rw [show ([fun _ => none] ++ [fun _ => some (("  ABC Corp  ").toList)] :
      List LabelPattern) = [fun _ => none, fun _ => some (("  ABC Corp  ").toList)]
    from rfl] at h
  rw [h]
  decide

/-- C6: every rate the extractor produces parses to a value strictly between
10 and 1,000,000; a labeled candidate whose value is unparsable or outside
that open interval falls through to the next pattern; and when no labeled
pattern yields an accepted rate, the extractor reports the maximum in-range
dollar-prefixed decimal amount of the text, or nothing when there is none. -/
theorem c6_rate_extraction (pats : List LabelPattern) (text : PyStr) :
    (∀ r, extract_rate pats text = some r →
      ∃ q, pyFloat r = some q ∧ 10 < q ∧ q < 1000000) ∧
    (∀ (p : LabelPattern) (ps : List LabelPattern) (g : PyStr), p text = some g →
      (∀ q, pyFloat (pyStrip (removeCommas g)) = some q →
        ¬ (10 < q ∧ q < 1000000)) →
      rate_from_patterns text (p :: ps) = rate_from_patterns text ps) ∧
    (rate_from_patterns text pats = none →
      (dollar_amounts text = [] → extract_rate pats text = none) ∧
      (dollar_amounts text ≠ [] → ∃ M, M ∈ dollar_amounts text ∧
        (∀ a ∈ dollar_amounts text, a ≤ M) ∧
        extract_rate pats text = some (formatFixed2 M))) := by
  refine ⟨?_, ?_, ?_⟩
  · intro r h
    unfold extract_rate at h
    split at h
    · rename_i r2 hr2
      injection h with h2
      subst h2
      exact rate_from_patterns_sound text pats r2 hr2
    · rename_i heq
      split at h
      · exact absurd h (by simp)
      · rename_i a rest heq2
        injection h with h2
        subst h2
        obtain ⟨hmem, -⟩ := pyMaxQ_spec rest a
        have hMmem : pyMaxQ (a :: rest) ∈ dollar_amounts text := by
          rw [heq2]; exact hmem
        obtain ⟨⟨n, hMn⟩, hr1, hr2⟩ := dollar_amounts_shape text _ hMmem
        refine ⟨pyMaxQ (a :: rest), ?_, hr1, hr2⟩
        rw [hMn]
        exact pyFloat_formatFixed2 n
  · intro p ps g hp hbad
    rw [rate_from_patterns, hp]
    cases hpf : pyFloat (pyStrip (removeCommas g)) with
    | none =>
      change (match pyFloat (pyStrip (removeCommas g)) with
        | none => rate_from_patterns text ps
        | some rate_num =>
          if 10 < rate_num ∧ rate_num < 1000000
          then some (pyStrip (removeCommas g))
          else rate_from_patterns text ps) = rate_from_patterns text ps
      rw [hpf]
    | some q =>
      change (match pyFloat (pyStrip (removeCommas g)) with
        | none => rate_from_patterns text ps
        | some rate_num =>
          if 10 < rate_num ∧ rate_num < 1000000
          then some (pyStrip (removeCommas g))
          else rate_from_patterns text ps) = rate_from_patterns text ps
      rw [hpf]
      exact if_neg (hbad q hpf)
  · intro hnone
    constructor
    · intro hda
      unfold extract_rate
      rw [hnone]
      change (match dollar_amounts text with
        | [] => none
        | a :: rest => some (formatFixed2 (pyMaxQ (a :: rest)))) = none
      rw [hda]
    · intro hne
      cases hda : dollar_amounts text with
      | nil => exact absurd hda hne
      | cons a rest =>
        obtain ⟨hmem, hbound⟩ := pyMaxQ_spec rest a
        refine ⟨pyMaxQ (a :: rest), ?_, ?_, ?_⟩
        · exact hmem
        · intro x hx
          exact hbound x hx
        · unfold extract_rate
          rw [hnone]
          change (match dollar_amounts text with
            | [] => none
            | a2 :: rest2 => some (formatFixed2 (pyMaxQ (a2 :: rest2)))) =
            some (formatFixed2 (pyMaxQ (a :: rest)))
          rw [hda]

/-- C6 witness: the fallback reports no rate on a dollar-free text, an
out-of-range labeled candidate falls through, and an in-range labeled
candidate is produced and parses into the open interval. -/
theorem c6_rate_extraction_witness :
    extract_rate [] (("no totals here").toList) = none ∧
    rate_from_patterns (("Rate: 5").toList)
      [fun _ => some (("5").toList), fun _ => none] =
      rate_from_patterns (("Rate: 5").toList) [fun _ => none] ∧
    (∃ q, pyFloat (("2500").toList) = some q ∧ 10 < q ∧ q < 1000000) := by
  have h2500 : pyStrip (removeCommas (("2500").toList)) = ("2500").toList := by
    decide
  have hval : ((digitsVal (("2500").toList) : ℕ) : ℚ) = 2500 := by
    rw [show digitsVal (("2500").toList) = 2500 from rfl]
    norm_num
  have hpf : pyFloat (pyStrip (removeCommas (("2500").toList))) = some 2500 := by
    rw [h2500, pyFloat_digits _ (by decide) (by decide), hval]
  refine ⟨?_, ?_, ?_⟩
  · exact ((c6_rate_extraction [] (("no totals here").toList)).2.2 rfl).1 rfl
  · refine (c6_rate_extraction [] (("Rate: 5").toList)).2.1
      (fun _ => some (("5").toList)) [fun _ => none] (("5").toList) rfl ?_
    intro q hq
    have h5 : pyStrip (removeCommas (("5").toList)) = ("5").toList := by decide
    rw [h5, pyFloat_digits _ (by decide) (by decide)] at hq
    have hv5 : ((digitsVal (("5").toList) : ℕ) : ℚ) = 5 := by
      rw [show digitsVal (("5").toList) = 5 from rfl]
      norm_num
    rw [hv5, Option.some.injEq] at hq
    subst hq
    intro hcon
    have := hcon.1
    norm_num at this
  · have hrate : rate_from_patterns (("x").toList)
        [fun _ => some (("2500").toList)] = some (("2500").toList) := by
      rw [rate_from_patterns]
      change (match pyFloat (pyStrip (removeCommas (("2500").toList))) with
        | none => rate_from_patterns (("x").toList) []
        | some rate_num =>
          if 10 < rate_num ∧ rate_num < 1000000
          then some (pyStrip (removeCommas (("2500").toList)))
          else rate_from_patterns (("x").toList) []) = some (("2500").toList)
      rw [hpf]
      change (if (10:ℚ) < 2500 ∧ (2500:ℚ) < 1000000
        then some (pyStrip (removeCommas (("2500").toList)))
        else rate_from_patterns (("x").toList) []) = some (("2500").toList)
      rw [if_pos (by norm_num), h2500]
    have hext : extract_rate [fun _ => some (("2500").toList)] (("x").toList) =
        some (("2500").toList) := by
      unfold extract_rate
      rw [hrate]
    exact (c6_rate_extraction [fun _ => some (("2500").toList)]
      (("x").toList)).1 (("2500").toList) hext

-- ──────────────────────────────────────────────────────────────────
-- Support lemmas for the segmenter claims
-- ──────────────────────────────────────────────────────────────────

/-- Every chunk emitted by the hard-split window loop is a stripped string. -/
theorem emitWindows_mem (s : PyStr) (cs : ℤ) :
    ∀ (offsets : List ℤ) (c : PyStr), c ∈ emitWindows s cs offsets →
      ∃ x, c = pyStrip x := by
  intro offsets
  induction offsets with
  | nil => intro c hc; simp [emitWindows] at hc
  | cons i rest ih =>
    intro c hc
    rw [emitWindows] at hc
    split at hc
    · exact ih c hc
    · rcases List.mem_cons.mp hc with rfl | hc2
      · exact ⟨_, rfl⟩
      · exact ih c hc2

/-- Sentence packing only ever appends stripped chunks. -/
theorem packSentences_mem (cs ov : ℤ) :
    ∀ (sents : List PyStr) (chunks : List PyStr) (cur : PyStr)
      (out : List PyStr),
      packSentences cs ov chunks cur sents = some out →
      ∀ c ∈ out, c ∈ chunks ∨ ∃ x, c = pyStrip x := by
  intro sents
  induction sents with
  | nil =>
    intro chunks cur out h c hc
    rw [packSentences, Option.some.injEq] at h
    subst h
    by_cases hcur : pyStrip cur = []
    · rw [if_pos hcur] at hc
      exact Or.inl hc
    · rw [if_neg hcur] at hc
      rcases List.mem_append.mp hc with h1 | h2
      · exact Or.inl h1
      · rw [List.mem_singleton] at h2
        exact Or.inr ⟨_, h2⟩
  | cons s rest ih =>
    intro chunks cur out h c hc
    rw [packSentences] at h
    split at h
    · exact ih _ _ _ h c hc
    · split at h
      · split at h
        · exact absurd h (by simp)
        · rename_i ws hws
          rcases ih _ _ _ h c hc with hin | hstr
          · rcases List.mem_append.mp hin with hin1 | hin2
            · by_cases hcur : cur = []
              · rw [if_pos hcur] at hin1
                exact Or.inl hin1
              · rw [if_neg hcur] at hin1
                rcases List.mem_append.mp hin1 with h1 | h2
                · exact Or.inl h1
                · rw [List.mem_singleton] at h2
                  exact Or.inr ⟨_, h2⟩
            · right
              unfold hardSplitEmit at hws
              split at hws
              · exact absurd hws (by simp)
              · rename_i offsets hoff
                rw [Option.some.injEq] at hws
                subst hws
                exact emitWindows_mem s cs offsets c hin2
          · exact Or.inr hstr
      · rcases ih _ _ _ h c hc with hin | hstr
        · by_cases hcur : cur = []
          · rw [if_pos hcur] at hin
            exact Or.inl hin
          · rw [if_neg hcur] at hin
            rcases List.mem_append.mp hin with h1 | h2
            · exact Or.inl h1
            · rw [List.mem_singleton] at h2
              exact Or.inr ⟨_, h2⟩
        · exact Or.inr hstr

/-- Processing one section only ever appends stripped chunks. -/
theorem processSection_mem (cs ov : ℤ) (chunks : List PyStr) (sec : PyStr)
    (out : List PyStr) (h : processSection cs ov chunks sec = some out) :
    ∀ c ∈ out, c ∈ chunks ∨ ∃ x, c = pyStrip x := by
  unfold processSection at h
  split at h
  · rw [Option.some.injEq] at h
    subst h
    exact fun c hc => Or.inl hc
  · split at h
    · rw [Option.some.injEq] at h
      subst h
      intro c hc
      rcases List.mem_append.mp hc with h1 | h2
      · exact Or.inl h1
      · rw [List.mem_singleton] at h2
        exact Or.inr ⟨_, h2⟩
    · exact packSentences_mem cs ov _ chunks [] out h

/-- The section loop only ever appends stripped chunks. -/
theorem processSections_mem (cs ov : ℤ) :
    ∀ (secs : List PyStr) (chunks out : List PyStr),
      processSections cs ov chunks secs = some out →
      ∀ c ∈ out, c ∈ chunks ∨ ∃ x, c = pyStrip x := by
  intro secs
  induction secs with
  | nil =>
    intro chunks out h c hc
    rw [processSections, Option.some.injEq] at h
    subst h
    exact Or.inl hc
  | cons sec rest ih =>
    intro chunks out h c hc
    rw [processSections] at h
    split at h
    · exact absurd h (by simp)
    · rename_i ch2 hch2
      rcases ih ch2 out h c hc with hin | hstr
      · exact processSection_mem cs ov chunks sec ch2 hch2 c hin
      · exact Or.inr hstr

/-- C1: for every input text and every target-size / overlap setting, every
chunk emitted by `intelligent_chunk` after the final filtering step has
trimmed length at least 20 characters (the chunks are in fact already
stripped), and the chunk indices attached by `process_and_store` are the
contiguous ascending sequence 0, 1, 2, ... over the emitted chunks. -/
theorem c1_chunk_invariants (text : PyStr) (chunk_size chunk_overlap : ℤ)
    (out : List PyStr)
    (h : intelligent_chunk text chunk_size chunk_overlap = some out) :
    (∀ c ∈ out, 20 ≤ (pyStrip c).length ∧ pyStrip c = c) ∧
    (chunk_metadata_indices out).length = out.length ∧
    (∀ (i : ℕ) (hi : i < (chunk_metadata_indices out).length),
      (chunk_metadata_indices out).get ⟨i, hi⟩ = i) := by
  unfold intelligent_chunk at h
  split at h
  · rw [Option.some.injEq] at h
    subst h
    refine ⟨by simp, by simp [chunk_metadata_indices], ?_⟩
    intro i hi
    simp [chunk_metadata_indices] at hi
  · split at h
    · exact absurd h (by simp)
    · rename_i chunks hch
      rw [Option.some.injEq] at h
      subst h
      refine ⟨?_, by simp [chunk_metadata_indices], ?_⟩
      · intro c hc
        rw [List.mem_filter] at hc
        obtain ⟨hmem, hlen⟩ := hc
        rcases processSections_mem chunk_size chunk_overlap _ [] chunks hch c hmem
          with h0 | ⟨x, rfl⟩
        · simp at h0
        · have hidem := pyStrip_idem x
          refine ⟨?_, hidem⟩
          rw [hidem]
          simpa using hlen
      · intro i hi
        simp only [chunk_metadata_indices] at hi ⊢
        simp [List.getElem_range]

/-- C1 witness: a concrete run with the default sizes emits one stripped
chunk of length at least 20 with index sequence of matching length. -/
theorem c1_chunk_invariants_witness :
    (∀ c ∈ [(("This is a tiny sample logistics text.").toList)],
      20 ≤ (pyStrip c).length ∧ pyStrip c = c) ∧
    (chunk_metadata_indices [(("This is a tiny sample logistics text.").toList)]).length =
      [(("This is a tiny sample logistics text.").toList)].length ∧
    (∀ (i : ℕ) (hi : i <
        (chunk_metadata_indices [(("This is a tiny sample logistics text.").toList)]).length),
      (chunk_metadata_indices [(("This is a tiny sample logistics text.").toList)]).get
        ⟨i, hi⟩ = i) :=
  c1_chunk_invariants (("This is a tiny sample logistics text.").toList) 512 64
    [(("This is a tiny sample logistics text.").toList)] (by decide)

/-- With distinct size and overlap, the hard split never fails. -/
theorem hardSplitEmit_total (s : PyStr) (cs ov : ℤ) (h : cs ≠ ov) :
    ∃ ws, hardSplitEmit s cs ov = some ws := by
  have hr : ∃ l, pyRange 0 (s.length : ℤ) (cs - ov) = some l := by
    unfold pyRange
    rw [if_neg (show ¬ (cs - ov = 0) by omega)]
    by_cases h2 : 0 < cs - ov
    · rw [if_pos h2]
      exact ⟨_, rfl⟩
    · rw [if_neg h2]
      exact ⟨_, rfl⟩
  obtain ⟨l, hl⟩ := hr
  unfold hardSplitEmit
  rw [hl]
  exact ⟨_, rfl⟩

/-- With distinct size and overlap, sentence packing never fails. -/
theorem packSentences_total (cs ov : ℤ) (h : cs ≠ ov) :
    ∀ (sents : List PyStr) (chunks : List PyStr) (cur : PyStr),
      ∃ out, packSentences cs ov chunks cur sents = some out := by
  intro sents
  induction sents with
  | nil => intro chunks cur; exact ⟨_, rfl⟩
  | cons s rest ih =>
    intro chunks cur
    rw [packSentences]
    by_cases h1 : (cur.length : ℤ) + s.length + 1 ≤ cs
    · rw [if_pos h1]
      exact ih _ _
    · rw [if_neg h1]
      by_cases h2 : cs < (s.length : ℤ)
      · rw [if_pos h2]
        obtain ⟨ws, hws⟩ := hardSplitEmit_total s cs ov h
        rw [hws]
        exact ih _ _
      · rw [if_neg h2]
        exact ih _ _

/-- With distinct size and overlap, processing a section never fails. -/
theorem processSection_total (cs ov : ℤ) (h : cs ≠ ov)
    (chunks : List PyStr) (sec : PyStr) :
    ∃ out, processSection cs ov chunks sec = some out := by
  unfold processSection
  by_cases h1 : pyStrip sec = []
  · rw [if_pos h1]
    exact ⟨_, rfl⟩
  · rw [if_neg h1]
    by_cases h2 : ((pyStrip sec).length : ℤ) ≤ cs
    · rw [if_pos h2]
      exact ⟨_, rfl⟩
    · rw [if_neg h2]
      exact packSentences_total cs ov h _ chunks []

/-- With distinct size and overlap, the section loop never fails. -/
theorem processSections_total (cs ov : ℤ) (h : cs ≠ ov) :
    ∀ (secs : List PyStr) (chunks : List PyStr),
      ∃ out, processSections cs ov chunks secs = some out := by
  intro secs
  induction secs with
  | nil => intro chunks; exact ⟨_, rfl⟩
  | cons sec rest ih =>
    intro chunks
    rw [processSections]
    obtain ⟨out1, hout1⟩ := processSection_total cs ov h chunks sec
    rw [hout1]
    exact ih out1

/-- C9 counterexample: the claim asserts totality for every parameter value,
but with `chunk_overlap = chunk_size` the reached character-level split calls
`range(0, len(sentence), 0)`, which raises `ValueError` in Python; the
embedding returns `none` for the 10-character text `abcdefghij` at size 5,
overlap 5 instead of returning a chunk sequence. -/
theorem c9_totality_counterexample :
    intelligent_chunk (("abcdefghij").toList) 5 5 = none := by decide

/-- C9 (amended): segmenting blank or whitespace-only text returns the empty
chunk sequence, and the segmenter is total whenever `chunk_overlap` differs
from `chunk_size` (in particular at the defaults 512/64); with
`chunk_overlap = chunk_size` the character-level split, when reached, raises. -/
theorem c9_blank_and_totality (text : PyStr) (chunk_size chunk_overlap : ℤ) :
    (pyStrip text = [] → intelligent_chunk text chunk_size chunk_overlap = some []) ∧
    (chunk_size ≠ chunk_overlap →
      ∃ out, intelligent_chunk text chunk_size chunk_overlap = some out) := by
  constructor
  · intro hblank
    unfold intelligent_chunk
    rw [if_pos hblank]
  · intro hne
    unfold intelligent_chunk
    by_cases hblank : pyStrip text = []
    · rw [if_pos hblank]
      exact ⟨_, rfl⟩
    · rw [if_neg hblank]
      obtain ⟨chunks, hch⟩ := processSections_total chunk_size chunk_overlap hne
        (buildSections [] [] (splitOnNl text)) []
      rw [hch]
      exact ⟨_, rfl⟩

/-- C9 witness: blank input yields the empty sequence, and a concrete
non-blank input at the default sizes yields a chunk sequence. -/
theorem c9_blank_and_totality_witness :
    intelligent_chunk (("   ").toList) 512 64 = some [] ∧
    ∃ out, intelligent_chunk (("abc").toList) 512 64 = some out :=
  ⟨(c9_blank_and_totality (("   ").toList) 512 64).1 (by decide),
   (c9_blank_and_totality (("abc").toList) 512 64).2 (by decide)⟩

/-- Every element generated by the positive-step range engine is below the
stop bound. -/
theorem pyRangeUpFuel_mem_lt (stop step : ℤ) :
    ∀ (fuel : ℕ) (start : ℤ), ∀ x ∈ pyRangeUpFuel stop step fuel start,
      x < stop := by
  intro fuel
  induction fuel with
  | zero => intro start x hx; simp [pyRangeUpFuel] at hx
  | succ fuel ih =>
    intro start x hx
    rw [pyRangeUpFuel] at hx
    split at hx
    · rename_i hlt
      rcases List.mem_cons.mp hx with rfl | hx2
      · exact hlt
      · exact ih _ x hx2
    · simp at hx

/-- The k-th element generated by the positive-step range engine is
`start + k·step`. -/
theorem pyRangeUpFuel_get? (stop step : ℤ) :
    ∀ (fuel : ℕ) (start : ℤ) (k : ℕ) (x : ℤ),
      (pyRangeUpFuel stop step fuel start).get? k = some x →
      x = start + k * step := by
  intro fuel
  induction fuel with
  | zero => intro start k x hx; simp [pyRangeUpFuel] at hx
  | succ fuel ih =>
    intro start k x hx
    rw [pyRangeUpFuel] at hx
    split at hx
    · cases k with
      | zero =>
        rw [List.get?_cons_zero, Option.some.injEq] at hx
        subst hx
        simp
      | succ k2 =>
        rw [List.get?_cons_succ] at hx
        have h2 := ih (start + step) k2 x hx
        subst h2
        push_cast
        ring
    · simp at hx

/-- The hard-split window emission equals mapping the window slice over the
offsets and keeping the stripped nonempty windows. -/
theorem emitWindows_eq_filterMap (s : PyStr) (cs : ℤ) :
    ∀ offsets : List ℤ, emitWindows s cs offsets =
      (offsets.map (fun i => windowAt s cs i)).filterMap
        (fun w => if pyStrip w = [] then none else some (pyStrip w)) := by
  intro offsets
  induction offsets with
  | nil => rfl
  | cons i rest ih =>
    by_cases hw : pyStrip (windowAt s cs i) = []
    · simp [emitWindows, List.filterMap_cons, hw, ih]
    · simp [emitWindows, List.filterMap_cons, hw, ih]

/-- C4: a single sentence longer than `target_size` is hard-split at offsets
`0, step, 2·step, ...` with `step = target_size − overlap`; the emission is
exactly the stripped nonempty windows `sentence[i : i + target_size]` in
offset order, and the packing buffer restarts empty; and each pair of
consecutive windows except possibly the last overlaps in exactly `overlap`
characters: the earlier window is full length and its last `overlap`
characters are precisely the first `overlap` characters of the next window.
Stated for `0 ≤ overlap` and `2·overlap < target_size`, which the defaults
512 / 64 satisfy. -/
theorem c4_hard_split_overlap (s : PyStr) (cs ov : ℤ)
    (hov : 0 ≤ ov) (hcs : 2 * ov < cs) (hlen : cs < (s.length : ℤ)) :
    ∃ offsets : List ℤ,
      pyRange 0 (s.length : ℤ) (cs - ov) = some offsets ∧
      hardSplitEmit s cs ov = some (emitWindows s cs offsets) ∧
      offsets ≠ [] ∧
      (∀ (k : ℕ) (x : ℤ), offsets.get? k = some x → x = k * (cs - ov)) ∧
      (emitWindows s cs offsets =
        (offsets.map (fun i => windowAt s cs i)).filterMap
          (fun w => if pyStrip w = [] then none else some (pyStrip w))) ∧
      (∀ (chunks : List PyStr) (cur : PyStr) (rest : List PyStr),
        packSentences cs ov chunks cur (s :: rest) =
          packSentences cs ov
            ((if cur = [] then chunks else chunks ++ [pyStrip cur]) ++
              emitWindows s cs offsets) [] rest) ∧
      (∀ k : ℕ, k + 2 < offsets.length →
        (windowAt s cs ((k : ℤ) * (cs - ov))).length = cs.toNat ∧
        (windowAt s cs ((k : ℤ) * (cs - ov))).drop (cs - ov).toNat =
          (windowAt s cs (((k + 1 : ℕ) : ℤ) * (cs - ov))).take ov.toNat ∧
        ((windowAt s cs (((k + 1 : ℕ) : ℤ) * (cs - ov))).take ov.toNat).length
          = ov.toNat) := by
  have hstep : 0 < cs - ov := by omega
  have hpr : pyRange 0 (s.length : ℤ) (cs - ov) =
      some (pyRangeUp 0 (s.length : ℤ) (cs - ov)) := by
    unfold pyRange
    rw [if_neg (by omega), if_pos hstep]
  have hget2 : ∀ (k : ℕ) (x : ℤ),
      (pyRangeUp 0 (s.length : ℤ) (cs - ov)).get? k = some x →
      x = k * (cs - ov) := by
    intro k x hx
    have h2 := pyRangeUpFuel_get? (s.length : ℤ) (cs - ov)
      (((s.length : ℤ) - 0).toNat) 0 k x hx
    rw [h2]
    ring
  have hmemlt : ∀ x ∈ pyRangeUp 0 (s.length : ℤ) (cs - ov),
      x < (s.length : ℤ) := by
    intro x hx
    exact pyRangeUpFuel_mem_lt (s.length : ℤ) (cs - ov)
      (((s.length : ℤ) - 0).toNat) 0 x hx
  refine ⟨pyRangeUp 0 (s.length : ℤ) (cs - ov), hpr, ?_, ?_, hget2, ?_, ?_, ?_⟩
  · unfold hardSplitEmit
    rw [hpr]
  · rcases Nat.exists_eq_succ_of_ne_zero
      (show ((s.length : ℤ) - 0).toNat ≠ 0 by omega) with ⟨m, hm⟩
    unfold pyRangeUp
    rw [hm, pyRangeUpFuel, if_pos (show (0:ℤ) < (s.length : ℤ) by omega)]
    simp
  · exact emitWindows_eq_filterMap s cs _
  · intro chunks cur rest
    rw [packSentences]
    have hcond : ¬ ((cur.length : ℤ) + s.length + 1 ≤ cs) := by
      have h0 : (0:ℤ) ≤ (cur.length : ℤ) := Int.natCast_nonneg _
      omega
    rw [if_neg hcond, if_pos hlen]
    unfold hardSplitEmit
    rw [hpr]
  · intro k hk2
    have hov2 : ov < cs - ov := by omega
    have hA : (0:ℤ) ≤ (k : ℤ) * (cs - ov) :=
      mul_nonneg (Int.natCast_nonneg k) (by omega)
    have hx := List.get?_eq_get hk2
    have hv := hget2 (k + 2) _ hx
    have hmem := List.get_mem (pyRangeUp 0 (s.length : ℤ) (cs - ov)) (k + 2) hk2
    have hlt := hmemlt _ hmem
    rw [hv] at hlt
    have hexp : (((k + 2 : ℕ)) : ℤ) * (cs - ov) =
        (k : ℤ) * (cs - ov) + 2 * (cs - ov) := by
      push_cast
      ring
    rw [hexp] at hlt
    have hkey : (k : ℤ) * (cs - ov) + cs ≤ (s.length : ℤ) := by linarith
    have hb : ((k + 1 : ℕ) : ℤ) * (cs - ov) =
        (k : ℤ) * (cs - ov) + (cs - ov) := by
      push_cast
      ring
    have hbt : (((k + 1 : ℕ) : ℤ) * (cs - ov)).toNat =
        ((k : ℤ) * (cs - ov)).toNat + (cs - ov).toNat := by
      rw [hb]
      omega
    refine ⟨?_, ?_, ?_⟩
    · unfold windowAt
      rw [List.length_take, List.length_drop]
      omega
    · unfold windowAt
      rw [List.drop_take, List.drop_drop, List.take_take, hbt]
      have e1 : cs.toNat - (cs - ov).toNat = ov.toNat := by omega
      have e2 : min ov.toNat cs.toNat = ov.toNat := by omega
      have e3 : ((k : ℤ) * (cs - ov)).toNat + (cs - ov).toNat =
          (cs - ov).toNat + ((k : ℤ) * (cs - ov)).toNat := by omega
      rw [e1, e2, e3]
    · unfold windowAt
      rw [List.take_take, List.length_take, List.length_drop, hbt]
      omega

/-- C4 witness: a concrete 26-character sentence at size 10 / overlap 2. -/
theorem c4_hard_split_overlap_witness :
    ∃ offsets : List ℤ,
      pyRange 0 (((("abcdefghijklmnopqrstuvwxyz").toList).length : ℕ) : ℤ)
        (10 - 2) = some offsets ∧
      hardSplitEmit (("abcdefghijklmnopqrstuvwxyz").toList) 10 2 =
        some (emitWindows (("abcdefghijklmnopqrstuvwxyz").toList) 10 offsets) ∧
      offsets ≠ [] ∧
      (∀ (k : ℕ) (x : ℤ), offsets.get? k = some x → x = k * (10 - 2)) ∧
      (emitWindows (("abcdefghijklmnopqrstuvwxyz").toList) 10 offsets =
        (offsets.map (fun i => windowAt (("abcdefghijklmnopqrstuvwxyz").toList) 10 i)).filterMap
          (fun w => if pyStrip w = [] then none else some (pyStrip w))) ∧
      (∀ (chunks : List PyStr) (cur : PyStr) (rest : List PyStr),
        packSentences 10 2 chunks cur ((("abcdefghijklmnopqrstuvwxyz").toList) :: rest) =
          packSentences 10 2
            ((if cur = [] then chunks else chunks ++ [pyStrip cur]) ++
              emitWindows (("abcdefghijklmnopqrstuvwxyz").toList) 10 offsets) [] rest) ∧
      (∀ k : ℕ, k + 2 < offsets.length →
        (windowAt (("abcdefghijklmnopqrstuvwxyz").toList) 10 ((k : ℤ) * (10 - 2))).length
          = (10 : ℤ).toNat ∧
        (windowAt (("abcdefghijklmnopqrstuvwxyz").toList) 10 ((k : ℤ) * (10 - 2))).drop
            ((10 - 2 : ℤ)).toNat =
          (windowAt (("abcdefghijklmnopqrstuvwxyz").toList) 10
            (((k + 1 : ℕ) : ℤ) * (10 - 2))).take (2 : ℤ).toNat ∧
        ((windowAt (("abcdefghijklmnopqrstuvwxyz").toList) 10
            (((k + 1 : ℕ) : ℤ) * (10 - 2))).take (2 : ℤ).toNat).length
          = (2 : ℤ).toNat) :=
  c4_hard_split_overlap (("abcdefghijklmnopqrstuvwxyz").toList) 10 2
    (by norm_num) (by norm_num) (by decide)

end Logistics
